import Mathlib

/-!
Verification development for the archive core of Project-Zipper
(internal/zipper/zipper.go).  The Go module is shallowly embedded: the
source directory is a tree value, file bytes are lists of naturals, the
SHA-256 digest is an abstract parameter (a function from archive contents
to hex strings), and the concurrent create/extract pipelines are modelled
by the serialized order the single archive writer observes (the mutex
around the progress counters serializes every callback, so the serialized
view is the one the progress contract speaks about).  Disk write failures
are not modelled; read failures are carried by a readable flag on each
file, mirroring the one recoverable error class of the source.
-/

namespace Zipper

/-! ## String helpers

Executable `List Char` models of the Go standard-library string and path
functions the module calls.  They are structural recursions so that every
concrete use evaluates inside the kernel. -/

/-- Model of ASCII lowercasing of one character (strings.ToLower acts
characterwise on the ASCII names appearing in this module). -/
def lowerChar (ch : Char) : Char :=
  if 'A' ≤ ch ∧ ch ≤ 'Z' then Char.ofNat (ch.toNat + 32) else ch

/-- Model of strings.ToLower. -/
def toLowerStr (s : String) : String := String.mk (s.data.map lowerChar)

/-- Model of strings.HasPrefix. -/
def hasPrefixStr (s p : String) : Bool := p.data.isPrefixOf s.data

/-- Model of strings.HasSuffix. -/
def hasSuffixStr (s p : String) : Bool := p.data.isSuffixOf s.data

/-- Model of strings.TrimPrefix. -/
def trimPrefixStr (s p : String) : String :=
  if hasPrefixStr s p then String.mk (s.data.drop p.data.length) else s

/-- Whitespace in the sense of unicode.IsSpace, restricted to the ASCII
range that can occur in this module. -/
def isSpaceChar (ch : Char) : Bool :=
  ch = ' ' ∨ ch = '\t' ∨ ch = '\n' ∨ ch = '\r' ∨ ch = Char.ofNat 11 ∨ ch = Char.ofNat 12

/-- Worker for `fields`: splits a character list around runs of whitespace,
accumulating the current field reversed. -/
def fieldsAux : List Char → List Char → List (List Char)
  | [], acc => if acc = [] then [] else [acc.reverse]
  | ch :: rest, acc =>
      if isSpaceChar ch then
        if acc = [] then fieldsAux rest [] else acc.reverse :: fieldsAux rest []
      else fieldsAux rest (ch :: acc)

/-- Model of strings.Fields. -/
def fields (s : String) : List String := (fieldsAux s.data []).map String.mk

/-- Worker for `extOf`: scans the reversed path for the final dot of the
final slash-separated element. -/
def extAux : List Char → List Char → String
  | [], _ => ""
  | ch :: rest, acc =>
      if ch = '/' then ""
      else if ch = '.' then String.mk ('.' :: acc)
      else extAux rest (ch :: acc)

/-- Model of filepath.Ext: the suffix from the final dot in the final
slash-separated element, empty when there is none. -/
def extOf (path : String) : String := extAux path.data.reverse []

/-- Model of filepath.Base: the last element of the path once trailing
separators are removed. -/
def baseName (s : String) : String :=
  if s = "" then "."
  else
    let rev := s.data.reverse.dropWhile (fun ch => ch = '/')
    if rev = [] then "/"
    else String.mk ((rev.takeWhile (fun ch => ch ≠ '/')).reverse)

/-- Worker for `splitOnSlash`. -/
def splitSlashAux : List Char → List Char → List (List Char)
  | [], acc => [acc.reverse]
  | ch :: rest, acc =>
      if ch = '/' then acc.reverse :: splitSlashAux rest []
      else splitSlashAux rest (ch :: acc)

/-- The slash-separated components of a path string. -/
def splitOnSlash (s : String) : List String := (splitSlashAux s.data []).map String.mk

/-- Slash-joins path components; models filepath.ToSlash applied to an
OS relative path built from these components. -/
def relSlash (rel : List String) : String :=
  String.mk ((rel.map String.data).intersperse ['/']).flatten

/-- The element stack of path.Clean: drops empty and dot components and
resolves dot-dot against the stack, at the root when rooted. -/
def cleanStack (rooted : Bool) : List String → List String → List String
  | [], stack => stack.reverse
  | c :: rest, stack =>
      if c = "" ∨ c = "." then cleanStack rooted rest stack
      else if c = ".." then
        match stack with
        | top :: more =>
            if top = ".." then cleanStack rooted rest (c :: top :: more)
            else cleanStack rooted rest more
        | [] => if rooted then cleanStack rooted rest [] else cleanStack rooted rest [".."]
      else cleanStack rooted rest (c :: stack)

/-- Model of filepath.Clean on slash paths (the unix case of the source). -/
def cleanPath (s : String) : String :=
  let rooted := hasPrefixStr s "/"
  let comps := cleanStack rooted (splitOnSlash s) []
  if rooted then "/" ++ relSlash comps
  else if comps = [] then "." else relSlash comps

/-- Model of filepath.IsLocal (unix): nonempty, not absolute, and when dot
or dot-dot elements occur the cleaned path must not escape upward. -/
def isLocalPath (s : String) : Bool :=
  if s = "" then false
  else if hasPrefixStr s "/" then false
  else
    let comps := splitOnSlash s
    if comps.any (fun c => c = "." ∨ c = "..") then
      let cleaned := cleanPath s
      !(cleaned = ".." ∨ hasPrefixStr cleaned "../")
    else true

/-- Model of filepath.Join of a destination directory and an entry name. -/
def joinPath (destDir name : String) : String :=
  if destDir = "" then cleanPath name else cleanPath (destDir ++ "/" ++ name)

/-- Model of filepath.Dir: everything before the final separator, cleaned. -/
def dirPath (s : String) : String :=
  cleanPath (String.mk (s.data.reverse.dropWhile (fun ch => ch ≠ '/')).reverse)

/-! ## Compression policy (zipper.go lines 106-137) -/

/-- flate.BestSpeed. -/
def flateBestSpeed : Int := 1

/-- flate.BestCompression. -/
def flateBestCompression : Int := 9

/-- flate.DefaultCompression. -/
def flateDefaultCompression : Int := -1

/-- zip.Store. -/
def zipStore : Nat := 0

/-- zip.Deflate. -/
def zipDeflate : Nat := 8

/-- One megabyte, the MB constant of getOptimalCompressionLevel. -/
def MB : Nat := 1024 * 1024

/-- The noCompress extension set of getCompressionMethod (lines 111-116). -/
def noCompressExts : List String :=
  [".zip", ".gz", ".7z", ".rar",
   ".jpg", ".jpeg", ".png", ".gif", ".webp",
   ".mp3", ".mp4", ".avi", ".mkv", ".mov",
   ".pdf", ".docx", ".xlsx", ".pptx"]

/-- getCompressionMethod (lines 108-121): store already-compressed
formats, deflate everything else; the extension is compared lowercased. -/
def getCompressionMethod (filename : String) : Nat :=
  if toLowerStr (extOf filename) ∈ noCompressExts then zipStore else zipDeflate

/-- getOptimalCompressionLevel (lines 125-137): the global effort tier as a
function of the scanned total size. -/
def getOptimalCompressionLevel (totalSize : Nat) : Int :=
  if totalSize < 10 * MB then flateBestCompression
  else if totalSize < 100 * MB then flateDefaultCompression
  else if totalSize < 500 * MB then 4
  else flateBestSpeed

/-! ## The filtering predicate (zipper.go lines 34-86), defined by the
source but never called by any creation or scanning path -/

/-- The skipDirs set of shouldSkip (lines 43-64). -/
def skipDirs : List String :=
  ["node_modules", "__pycache__", ".git", ".svn", ".hg", ".vscode", ".idea",
   ".vs", "bin", "obj", "target", "build", "dist", ".cache", "temp", "tmp",
   ".temp", ".tmp", "thumbs.db", ".ds_store"]

/-- shouldSkip (lines 34-86): hidden names, development and cache
directories, temporary suffixes and system files. -/
def shouldSkip (name : String) (isDirFlag : Bool) : Bool :=
  let lowerName := toLowerStr name
  if hasPrefixStr name "." then true
  else if isDirFlag = true ∧ lowerName ∈ skipDirs then true
  else if hasSuffixStr lowerName ".tmp" ∨ hasSuffixStr lowerName ".temp" ∨
      hasSuffixStr lowerName "~" ∨ hasSuffixStr lowerName ".bak" ∨
      hasSuffixStr lowerName ".swp" ∨ hasPrefixStr lowerName "~$" then true
  else if lowerName = "thumbs.db" ∨ lowerName = "desktop.ini" ∨ lowerName = ".ds_store" then true
  else false

/-! ## Source trees, walk order and scan statistics -/

/-- A source directory tree.  `readable = false` marks a file whose
os.ReadFile call fails during creation (the one recoverable error). -/
inductive FsTree where
  | file (name : String) (content : List Nat) (readable : Bool)
  | dir (name : String) (children : List FsTree)

/-- fileJob (lines 99-104): one unit of walk output, with the relative
path kept as components.  Directories carry empty content. -/
structure FileJob where
  rel : List String
  isDir : Bool
  content : List Nat
  readable : Bool
deriving DecidableEq

/-- The filepath.WalkDir visit order below one directory: each child is
visited before its own children, depth first (lines 191-217). -/
def jobsOfList (pre : List String) : List FsTree → List FileJob
  | [] => []
  | .file n c r :: ts => ⟨pre ++ [n], false, c, r⟩ :: jobsOfList pre ts
  | .dir n cs :: ts =>
      ⟨pre ++ [n], true, [], true⟩ ::
        (jobsOfList (pre ++ [n]) cs ++ jobsOfList pre ts)

/-- The jobs collected by the creation walk: every entry below the source
root (the root itself has relative path "." and is dropped, line 201). -/
def walkJobs : FsTree → List FileJob
  | .file _ _ _ => []
  | .dir _ cs => jobsOfList [] cs

/-- The bytes a job contributes to the scanned total (directories none). -/
def jobBytes (j : FileJob) : Nat := if j.isDir then 0 else j.content.length

/-- Total bytes over a job list. -/
def jobsSize (l : List FileJob) : Nat := (l.map jobBytes).sum

/-- Regular-file count over a job list. -/
def jobsFileCount (l : List FileJob) : Nat := (l.filter (fun j => !j.isDir)).length

/-- ArchiveStats (lines 27-31). -/
structure ArchiveStats where
  totalBytes : Nat
  fileCount : Nat
  checksum : String
deriving DecidableEq

/-- scanDirectory (lines 341-359): walks the same tree as the collection
loop and totals size and count over every regular file, readable or not
(d.Info succeeds for unreadable files; only os.ReadFile fails later).
A file root is counted by the walk visiting the root itself. -/
def scanDirectory (t : FsTree) : ArchiveStats :=
  match t with
  | .file _ c _ => ⟨c.length, 1, ""⟩
  | .dir _ _ => ⟨jobsSize (walkJobs t), jobsFileCount (walkJobs t), ""⟩

/-- The path WalkDir hands the worker for a job (srcDir joined with the
relative components); only its final element matters to the module. -/
def jobPath (srcDir : String) (j : FileJob) : String := srcDir ++ "/" ++ relSlash j.rel

/-- The worker output that reaches the sequential writer: directory jobs
pass through, readable files pass through, unreadable files are skipped
(lines 239-256). -/
def fileDatas (jobs : List FileJob) : List FileJob :=
  jobs.filter (fun j => j.isDir || j.readable)

/-- The warning lines the workers print for skipped files (line 248). -/
def warningsOf (srcDir : String) (jobs : List FileJob) : List String :=
  (jobs.filter (fun j => !j.isDir && !j.readable)).map
    (fun j => "Warning: skipping " ++ jobPath srcDir j)

/-! ## Archive contents and the abstract digest -/

/-- One zip central-directory entry as the module shapes it (lines
278-299): slashed relative name, a trailing separator for directories,
per-file method, stored payload. -/
structure ZipEntry where
  name : String
  isDir : Bool
  method : Nat
  data : List Nat
deriving DecidableEq

/-- One tar entry as the module shapes it (lines 676-706): the name is
overwritten with the slashed relative path after tar.FileInfoHeader built
the header, so no trailing separator survives; directoryness lives in the
type flag. -/
structure TarEntry where
  name : String
  isDir : Bool
  data : List Nat
deriving DecidableEq

/-- The byte content of a file on disk, at the abstraction level of this
model: a zip container (entries plus end-of-central-directory comment), a
tar.gz container, or plain text (the checksum sidecar). -/
inductive FileContent where
  | zipData (entries : List ZipEntry) (comment : String)
  | gzData (entries : List TarEntry)
  | textData (s : String)
deriving DecidableEq

/-- calculateFileChecksum (lines 849-862): the SHA-256 hex digest of a
file, abstracted to a caller-supplied digest function over the modelled
file content. -/
def calculateFileChecksum (hash : FileContent → String) (content : FileContent) : String :=
  hash content

/-- addChecksumToZip (lines 865-911): re-reads the archive, rewrites every
entry into a fresh container and sets the comment to the tagged digest;
the entries survive, the comment changes. -/
def addChecksumToZip (z : FileContent) (checksum : String) : FileContent :=
  match z with
  | .zipData entries _ => .zipData entries ("SHA256: " ++ checksum)
  | other => other

/-- writeChecksumFile (lines 931-935): the sidecar text. -/
def writeChecksumFile (archivePath checksum : String) : String :=
  checksum ++ " *" ++ baseName archivePath ++ "\n"

/-! ## Creation pipelines (zipper.go lines 155-338 and 554-734)

The writer loop drains the result channel and appends entries one at a
time; the model fixes the serialized order to the walk order, which every
claim here is insensitive to (see section 5 of the spec: arrival order is
not deterministic, and no property below depends on it). -/

/-- The zip entry the writer builds for one job (lines 278-299): slashed
relative name, a trailing separator and implicit Store method for
directories, the per-file method for files. -/
def mkZipEntry (srcDir : String) (j : FileJob) : ZipEntry :=
  if j.isDir then ⟨relSlash j.rel ++ "/", true, zipStore, []⟩
  else ⟨relSlash j.rel, false, getCompressionMethod (jobPath srcDir j), j.content⟩

/-- The tar entry the writer builds for one job (lines 676-693): the
header name is overwritten with the slashed relative path for files and
directories alike. -/
def mkTarEntry (j : FileJob) : TarEntry :=
  ⟨relSlash j.rel, j.isDir, if j.isDir then [] else j.content⟩

/-- The entries of the zip archive: the surviving worker results in
serialized order. -/
def zipEntriesOf (srcDir : String) (t : FsTree) : List ZipEntry :=
  (fileDatas (walkJobs t)).map (mkZipEntry srcDir)

/-- The entries of the tar.gz archive. -/
def tarEntriesOf (t : FsTree) : List TarEntry :=
  (fileDatas (walkJobs t)).map mkTarEntry

/-- The per-file progress callbacks of the writer loop (lines 301-311):
after a file entry is written, done grows by its size and the callback
reports (done, total, relative path); directory entries report nothing. -/
def creationEvents (total : Nat) : List FileJob → Nat → List (Nat × Nat × String)
  | [], _ => []
  | j :: rest, done =>
      if j.isDir then creationEvents total rest done
      else
        (done + j.content.length, total, relSlash j.rel) ::
          creationEvents total rest (done + j.content.length)

/-- The currentFile value left after the loop (set per written file). -/
def lastFileName : List FileJob → String → String
  | [], cur => cur
  | j :: rest, cur => lastFileName rest (if j.isDir then cur else relSlash j.rel)

/-- Every callback invocation of one creation run: the unconditional
initial call (line 187), one call per written file, and the unconditional
final call after the loop (line 317). -/
def createEvents (t : FsTree) : List (Nat × Nat × String) :=
  (0, (scanDirectory t).totalBytes, "") ::
    (creationEvents (scanDirectory t).totalBytes (fileDatas (walkJobs t)) 0 ++
      [(jobsSize (fileDatas (walkJobs t)), (scanDirectory t).totalBytes,
        lastFileName (fileDatas (walkJobs t)) "")])

/-- What one ZipWithProgressAndFile call leaves behind: the returned
stats, the bytes finally at zipPath, the callback trace, the warning
lines, and the single level registered for the Deflate compressor. -/
structure ZipCreateResult where
  stats : ArchiveStats
  file : FileContent
  events : List (Nat × Nat × String)
  warnings : List String
  level : Int
deriving DecidableEq

/-- ZipWithProgressAndFile (lines 155-338): scan, register one compressor
level from the scanned total, walk, read through the worker pool (skipping
unreadable files with a warning), append entries sequentially, close,
digest the closed archive, then rewrite it with the digest comment. -/
def ZipWithProgressAndFile (hash : FileContent → String) (t : FsTree)
    (srcDir zipPath : String) : ZipCreateResult :=
  { stats := { scanDirectory t with
      checksum := calculateFileChecksum hash (.zipData (zipEntriesOf srcDir t) "") }
    file := addChecksumToZip (.zipData (zipEntriesOf srcDir t) "")
      (calculateFileChecksum hash (.zipData (zipEntriesOf srcDir t) ""))
    events := createEvents t
    warnings := warningsOf srcDir (walkJobs t)
    level := getOptimalCompressionLevel (scanDirectory t).totalBytes }

/-- What one GzipWithProgressAndFile call leaves behind; sidecar is the
text written to gzipPath ++ ".sha256". -/
structure GzipCreateResult where
  stats : ArchiveStats
  file : FileContent
  sidecar : String
  events : List (Nat × Nat × String)
  warnings : List String
  level : Int
deriving DecidableEq

/-- GzipWithProgressAndFile (lines 554-734): same pipeline into a tar.gz
container; the digest of the closed archive goes to the sidecar file, the
archive itself is not rewritten. -/
def GzipWithProgressAndFile (hash : FileContent → String) (t : FsTree)
    (srcDir gzipPath : String) : GzipCreateResult :=
  { stats := { scanDirectory t with
      checksum := calculateFileChecksum hash (.gzData (tarEntriesOf t)) }
    file := .gzData (tarEntriesOf t)
    sidecar := writeChecksumFile gzipPath (calculateFileChecksum hash (.gzData (tarEntriesOf t)))
    events := createEvents t
    warnings := warningsOf srcDir (walkJobs t)
    level := getOptimalCompressionLevel (scanDirectory t).totalBytes }

/-- A creation result as the plain-ProgressFunc wrappers observe it: the
adapter drops the current-file argument, and invokes the caller callback
only when one was supplied. -/
structure CreateResultP where
  stats : ArchiveStats
  file : FileContent
  sidecar : String
  warnings : List String
  events : List (Nat × Nat)
deriving DecidableEq

/-- ZipWithProgress (lines 146-152): delegates to ZipWithProgressAndFile
with an adapter that forwards (done, total) to the callback when one is
supplied.  hasCallback models progress being non-nil. -/
def ZipWithProgress (hash : FileContent → String) (t : FsTree)
    (srcDir zipPath : String) (hasCallback : Bool) : CreateResultP :=
  { stats := (ZipWithProgressAndFile hash t srcDir zipPath).stats
    file := (ZipWithProgressAndFile hash t srcDir zipPath).file
    sidecar := ""
    warnings := (ZipWithProgressAndFile hash t srcDir zipPath).warnings
    events := if hasCallback then
        (ZipWithProgressAndFile hash t srcDir zipPath).events.map (fun e => (e.1, e.2.1))
      else [] }

/-- Zip (lines 140-143): ZipWithProgress with a nil callback, stats
discarded.  Creation cannot fail in the disk-failure-free model, so the
returned error is always nil; the rest of the record is the world the
call leaves behind. -/
def Zip (hash : FileContent → String) (t : FsTree) (srcDir zipPath : String) : CreateResultP :=
  ZipWithProgress hash t srcDir zipPath false

/-- GzipWithProgress (lines 545-551). -/
def GzipWithProgress (hash : FileContent → String) (t : FsTree)
    (srcDir gzipPath : String) (hasCallback : Bool) : CreateResultP :=
  { stats := (GzipWithProgressAndFile hash t srcDir gzipPath).stats
    file := (GzipWithProgressAndFile hash t srcDir gzipPath).file
    sidecar := (GzipWithProgressAndFile hash t srcDir gzipPath).sidecar
    warnings := (GzipWithProgressAndFile hash t srcDir gzipPath).warnings
    events := if hasCallback then
        (GzipWithProgressAndFile hash t srcDir gzipPath).events.map (fun e => (e.1, e.2.1))
      else [] }

/-- Gzip (lines 539-542). -/
def Gzip (hash : FileContent → String) (t : FsTree) (srcDir gzipPath : String) : CreateResultP :=
  GzipWithProgress hash t srcDir gzipPath false

/-! ## Checksum verification (zipper.go lines 938-984) -/

/-- The (bool, string, error) verdict of VerifyChecksum. -/
inductive VerifyResult where
  | ok (matched : Bool) (digest : String)
  | err (msg : String)
deriving DecidableEq

/-- VerifyChecksum (lines 938-984): dispatch on the archive path
extension; read the stored digest from the zip comment or the sidecar,
recompute the digest over the archive bytes as stored, compare.  readFile
is the state of the disk, nothing is written. -/
def VerifyChecksum (hash : FileContent → String) (archivePath : String)
    (readFile : String → Option FileContent) : VerifyResult :=
  if toLowerStr (extOf archivePath) = ".zip" then
    match readFile archivePath with
    | some (.zipData entries comment) =>
        if hasPrefixStr comment "SHA256: " then
          VerifyResult.ok
            (trimPrefixStr comment "SHA256: " == calculateFileChecksum hash (.zipData entries comment))
            (trimPrefixStr comment "SHA256: ")
        else .err "no checksum found in archive"
    | _ => .err "failed to open zip archive"
  else if toLowerStr (extOf archivePath) = ".gz" ∨ hasSuffixStr archivePath ".tar.gz" then
    match readFile (archivePath ++ ".sha256") with
    | some (.textData data) =>
        match (fields data).head? with
        | none => .err "invalid checksum file format"
        | some storedChecksum =>
            match readFile archivePath with
            | some content =>
                VerifyResult.ok (storedChecksum == calculateFileChecksum hash content)
                  storedChecksum
            | none => .err "failed to open archive"
    | _ => .err "checksum file not found"
  else .err "unsupported archive format"

/-- A zip creation immediately followed by VerifyChecksum on the produced
path; the disk holds exactly the produced archive. -/
def zipCreateThenVerify (hash : FileContent → String) (t : FsTree)
    (srcDir zipPath : String) : VerifyResult :=
  VerifyChecksum hash zipPath
    (fun q => if q = zipPath then some (ZipWithProgressAndFile hash t srcDir zipPath).file
      else none)

/-- A tar.gz creation immediately followed by VerifyChecksum; the disk
holds the archive and its sidecar. -/
def gzipCreateThenVerify (hash : FileContent → String) (t : FsTree)
    (srcDir gzipPath : String) : VerifyResult :=
  VerifyChecksum hash gzipPath
    (fun q =>
      if q = gzipPath ++ ".sha256" then
        some (.textData (GzipWithProgressAndFile hash t srcDir gzipPath).sidecar)
      else if q = gzipPath then some (GzipWithProgressAndFile hash t srcDir gzipPath).file
      else none)

/-! ## Extraction pipelines (zipper.go lines 367-520 and 737-846)

As with creation, the worker pool is serialized to the producer order the
single reader dispatches; a fatal error stops the run at the entry that
raised it (in the source, jobs already queued may still drain first, which
only adds writes of entries that already passed the guard). -/

/-- ExtractStats (lines 362-365). -/
structure ExtractStats where
  totalBytes : Nat
  fileCount : Nat
deriving DecidableEq

/-- One filesystem mutation of an extraction. -/
inductive FsOp where
  | mkdirAll (path : String)
  | writeFile (path : String) (data : List Nat)
deriving DecidableEq

/-- A mutation tagged with the archive entry name that caused it. -/
structure FsWrite where
  entryName : String
  op : FsOp
deriving DecidableEq

/-- The outcome of one phase of an extraction: the first fatal error if
any, the writes performed before it, the progress values reported. -/
structure PhaseOut where
  err : Option String
  writes : List FsWrite
  events : List (Nat × Nat)
deriving DecidableEq

/-- Uncompressed payload bytes over the regular-file entries of a zip. -/
def zipTotalBytes (es : List ZipEntry) : Nat :=
  ((es.filter (fun e => !e.isDir)).map (fun e => e.data.length)).sum

/-- Regular-file count of a zip. -/
def zipFileCount (es : List ZipEntry) : Nat := (es.filter (fun e => !e.isDir)).length

/-- The directory pre-creation pass of ExtractWithProgress (lines
406-416): for each directory entry, the destination path is computed, the
name is checked with filepath.IsLocal before MkdirAll, and a failed check
aborts at once. -/
def dirPhase (destDir : String) : List ZipEntry → PhaseOut
  | [] => ⟨none, [], []⟩
  | e :: rest =>
      if e.isDir then
        if isLocalPath e.name then
          { dirPhase destDir rest with
            writes := ⟨e.name, .mkdirAll (joinPath destDir e.name)⟩ ::
              (dirPhase destDir rest).writes }
        else ⟨some ("invalid file path: " ++ e.name), [], []⟩
      else dirPhase destDir rest

/-- The file pass of ExtractWithProgress (lines 430-507): the producer
checks each regular-file name with filepath.IsLocal before creating its
parent directory and queueing it; the worker writes the file, adds its
size to done and reports progress. -/
def filePhase (destDir : String) (total : Nat) : List ZipEntry → Nat → PhaseOut
  | [], _ => ⟨none, [], []⟩
  | e :: rest, done =>
      if e.isDir then filePhase destDir total rest done
      else if isLocalPath e.name then
        { filePhase destDir total rest (done + e.data.length) with
          writes := ⟨e.name, .mkdirAll (dirPath (joinPath destDir e.name))⟩ ::
            ⟨e.name, .writeFile (joinPath destDir e.name) e.data⟩ ::
            (filePhase destDir total rest (done + e.data.length)).writes
          events := (done + e.data.length, total) ::
            (filePhase destDir total rest (done + e.data.length)).events }
      else ⟨some ("invalid file path: " ++ e.name), [], []⟩

/-- The result of one extraction run. -/
structure ExtractResult where
  stats : ExtractStats
  err : Option String
  writes : List FsWrite
  events : List (Nat × Nat)
deriving DecidableEq

/-- ExtractWithProgress before callback gating (lines 374-520): totals
from the archive metadata, the unconditional initial progress call, the
directory pass, the file pass, and on success the final progress call
(line 518, reached only when no error was raised).  A path that is not a
zip container fails at zip.OpenReader, before any progress call. -/
def ExtractWithProgressCore (file : FileContent) (destDir : String) : ExtractResult :=
  match file with
  | .zipData es _ =>
      match (dirPhase destDir es).err with
      | some m => ⟨⟨zipTotalBytes es, zipFileCount es⟩, some m, (dirPhase destDir es).writes,
          [(0, zipTotalBytes es)]⟩
      | none =>
          match (filePhase destDir (zipTotalBytes es) es 0).err with
          | some m => ⟨⟨zipTotalBytes es, zipFileCount es⟩, some m,
              (dirPhase destDir es).writes ++ (filePhase destDir (zipTotalBytes es) es 0).writes,
              (0, zipTotalBytes es) :: (filePhase destDir (zipTotalBytes es) es 0).events⟩
          | none => ⟨⟨zipTotalBytes es, zipFileCount es⟩, none,
              (dirPhase destDir es).writes ++ (filePhase destDir (zipTotalBytes es) es 0).writes,
              (0, zipTotalBytes es) ::
                ((filePhase destDir (zipTotalBytes es) es 0).events ++
                  [(zipTotalBytes es, zipTotalBytes es)])⟩
  | _ => ⟨⟨0, 0⟩, some "zip: not a valid zip file", [], []⟩

/-- ExtractWithProgress (lines 374-520): every progress call goes through
callProgress, which does nothing when the callback is nil. -/
def ExtractWithProgress (file : FileContent) (destDir : String)
    (hasCallback : Bool) : ExtractResult :=
  { ExtractWithProgressCore file destDir with
    events := if hasCallback then (ExtractWithProgressCore file destDir).events else [] }

/-- Extract (lines 367-371): ExtractWithProgress with a nil callback,
stats discarded, error returned. -/
def Extract (file : FileContent) (destDir : String) : Option String :=
  (ExtractWithProgress file destDir false).err

/-- Payload bytes over the regular-file entries of a tar. -/
def tarTotalBytes (es : List TarEntry) : Nat :=
  ((es.filter (fun e => !e.isDir)).map (fun e => e.data.length)).sum

/-- Regular-file count of a tar. -/
def tarFileCount (es : List TarEntry) : Nat := (es.filter (fun e => !e.isDir)).length

/-- The single extraction loop of ExtractGzipWithProgress (lines 795-842):
each entry name is checked with filepath.IsLocal before the switch on its
type; directories are MkdirAll-ed; regular files get their parent
directory, then the payload is copied through progressReader, which
reports progress only for nonempty reads. -/
def gzLoop (destDir : String) (total : Nat) : List TarEntry → Nat → PhaseOut
  | [], _ => ⟨none, [], []⟩
  | e :: rest, done =>
      if isLocalPath e.name then
        if e.isDir then
          { gzLoop destDir total rest done with
            writes := ⟨e.name, .mkdirAll (joinPath destDir e.name)⟩ ::
              (gzLoop destDir total rest done).writes }
        else
          { gzLoop destDir total rest (done + e.data.length) with
            writes := ⟨e.name, .mkdirAll (dirPath (joinPath destDir e.name))⟩ ::
              ⟨e.name, .writeFile (joinPath destDir e.name) e.data⟩ ::
              (gzLoop destDir total rest (done + e.data.length)).writes
            events := (if e.data.length > 0 then [(done + e.data.length, total)] else []) ++
              (gzLoop destDir total rest (done + e.data.length)).events }
      else ⟨some ("invalid file path: " ++ e.name), [], []⟩

/-- ExtractGzipWithProgress before callback gating (lines 743-846): the
first pass totals the regular entries, then the initial progress call, the
extraction loop, and on success the final call.  A path that is not a gzip
container fails at gzip.NewReader, before any progress call. -/
def ExtractGzipWithProgressCore (file : FileContent) (destDir : String) : ExtractResult :=
  match file with
  | .gzData es =>
      match (gzLoop destDir (tarTotalBytes es) es 0).err with
      | some m => ⟨⟨tarTotalBytes es, tarFileCount es⟩, some m,
          (gzLoop destDir (tarTotalBytes es) es 0).writes,
          (0, tarTotalBytes es) :: (gzLoop destDir (tarTotalBytes es) es 0).events⟩
      | none => ⟨⟨tarTotalBytes es, tarFileCount es⟩, none,
          (gzLoop destDir (tarTotalBytes es) es 0).writes,
          (0, tarTotalBytes es) ::
            ((gzLoop destDir (tarTotalBytes es) es 0).events ++
              [(tarTotalBytes es, tarTotalBytes es)])⟩
  | _ => ⟨⟨0, 0⟩, some "gzip: invalid header", [], []⟩

/-- ExtractGzipWithProgress (lines 743-846) with the nil-callback gate. -/
def ExtractGzipWithProgress (file : FileContent) (destDir : String)
    (hasCallback : Bool) : ExtractResult :=
  { ExtractGzipWithProgressCore file destDir with
    events := if hasCallback then (ExtractGzipWithProgressCore file destDir).events else [] }

/-- ExtractGzip (lines 737-740). -/
def ExtractGzip (file : FileContent) (destDir : String) : Option String :=
  (ExtractGzipWithProgress file destDir false).err

/-! ## Concrete values for witnesses -/

/-- A concrete digest function for witnesses: injective on the pairs of
contents the witnesses compare. -/
def demoHash : FileContent → String
  | .zipData _ comment => "zip-" ++ comment
  | .gzData _ => "gz"
  | .textData s => "txt-" ++ s

/-! ## Helper lemmas on the string models -/

/-- Appending to a string concatenates the character data. -/
theorem strData_append (a b : String) : (a ++ b).data = a.data ++ b.data :=
  String.data_append a b

/-- Rebuilding a string from its data is the identity. -/
theorem strMk_data (s : String) : String.mk s.data = s := rfl

/-- A string is its prefix followed by the rest. -/
theorem hasPrefixStr_append (p c : String) : hasPrefixStr (p ++ c) p = true := by
  unfold hasPrefixStr
  rw [strData_append, List.isPrefixOf_iff_prefix]
  exact List.prefix_append _ _

/-- Trimming a prefix off the string that starts with it leaves the rest. -/
theorem trimPrefixStr_append (p c : String) : trimPrefixStr (p ++ c) p = c := by
  unfold trimPrefixStr
  rw [hasPrefixStr_append]
  simp [strData_append, List.drop_left]

/-- A string carries any suffix it was built with. -/
theorem hasSuffixStr_append (x p : String) : hasSuffixStr (x ++ p) p = true := by
  unfold hasSuffixStr
  rw [strData_append, List.isSuffixOf_iff_suffix]
  exact List.suffix_append _ _

/-- Appending a nonempty string changes the string. -/
theorem ne_append_of_data_nonempty (s t : String) (h : t.data ≠ []) : s ≠ s ++ t := by
  intro he
  have hl := congrArg (fun x => x.data.length) he
  simp only [strData_append, List.length_append] at hl
  have : t.data.length = 0 := by omega
  exact h (List.length_eq_zero.mp this)

/-- A nonempty string has nonempty data. -/
theorem data_ne_nil_of_ne_empty (c : String) (h : c ≠ "") : c.data ≠ [] := by
  intro hd
  apply h
  cases c with
  | mk l => cases hd; rfl

/-- Running `fieldsAux` over characters that are not whitespace just
accumulates them. -/
theorem fieldsAux_append_nospace (c : List Char) (rest acc : List Char)
    (h : ∀ ch ∈ c, isSpaceChar ch = false) :
    fieldsAux (c ++ rest) acc = fieldsAux rest (c.reverse ++ acc) := by
  induction c generalizing acc with
  | nil => simp
  | cons ch c2 ih =>
      have hch : isSpaceChar ch = false := h ch (by simp)
      simp only [List.cons_append, fieldsAux, hch, Bool.false_eq_true, if_false,
        List.reverse_cons, List.append_assoc, List.singleton_append]
      exact ih _ (fun x hx => h x (by simp [hx]))

/-- The first field of the sidecar text is the digest, whenever the
digest is nonempty and free of whitespace (every SHA-256 hex string is). -/
theorem fields_sidecar_head (c base : String)
    (hns : c.data.all (fun ch => !isSpaceChar ch) = true) (hne : c ≠ "") :
    (fields (c ++ " *" ++ base ++ "\n")).head? = some c := by
  have hd : (c ++ " *" ++ base ++ "\n").data
      = c.data ++ (' ' :: '*' :: (base.data ++ ['\n'])) := by
    simp [strData_append]
  have hns2 : ∀ ch ∈ c.data, isSpaceChar ch = false := by
    intro ch hch
    have := List.all_eq_true.mp hns ch hch
    simpa using this
  unfold fields
  rw [hd, fieldsAux_append_nospace _ _ _ hns2]
  have hsp : isSpaceChar ' ' = true := by decide
  have hacc : c.data.reverse ++ [] ≠ [] := by
    simp
    exact data_ne_nil_of_ne_empty c hne
  simp only [fieldsAux, hsp, if_true, if_neg hacc]
  simp [strMk_data]

/-! ## C5: the global effort tier -/

/-- C5: the effort tier is a pure function of the scanned total with
exactly the claimed intervals; the boundaries 10 MB, 100 MB and 500 MB
each fall to the faster tier; one tier value is selected per archive and
recorded uniformly for the whole container (one registered compressor for
zip, one stream level for gzip). -/
theorem effort_tier_intervals (n : Nat) :
    (n < 10 * MB → getOptimalCompressionLevel n = 9) ∧
    (10 * MB ≤ n ∧ n < 100 * MB → getOptimalCompressionLevel n = -1) ∧
    (100 * MB ≤ n ∧ n < 500 * MB → getOptimalCompressionLevel n = 4) ∧
    (500 * MB ≤ n → getOptimalCompressionLevel n = 1) ∧
    getOptimalCompressionLevel (10 * MB) = flateDefaultCompression ∧
    getOptimalCompressionLevel (100 * MB) = 4 ∧
    getOptimalCompressionLevel (500 * MB) = flateBestSpeed ∧
    (∀ hash t srcDir zipPath, (ZipWithProgressAndFile hash t srcDir zipPath).level
      = getOptimalCompressionLevel (scanDirectory t).totalBytes) ∧
    (∀ hash t srcDir gzipPath, (GzipWithProgressAndFile hash t srcDir gzipPath).level
      = getOptimalCompressionLevel (scanDirectory t).totalBytes) := by
  refine ⟨?_, ?_, ?_, ?_, by decide, by decide, by decide, fun _ _ _ _ => rfl, fun _ _ _ _ => rfl⟩
  · intro h
    simp [getOptimalCompressionLevel, flateBestCompression, h]
  · intro h
    have h1 : ¬n < 10 * MB := by omega
    simp [getOptimalCompressionLevel, flateDefaultCompression, h1, h.2]
  · intro h
    have h1 : ¬n < 10 * MB := by unfold MB at h ⊢; omega
    have h2 : ¬n < 100 * MB := by unfold MB at h ⊢; omega
    simp [getOptimalCompressionLevel, h1, h2, h.2]
  · intro h
    have h1 : ¬n < 10 * MB := by unfold MB at h ⊢; omega
    have h2 : ¬n < 100 * MB := by unfold MB at h ⊢; omega
    have h3 : ¬n < 500 * MB := by unfold MB at h ⊢; omega
    simp [getOptimalCompressionLevel, flateBestSpeed, h1, h2, h3]

/-- Witness for C5 at the three boundary sizes and one interior point. -/
theorem effort_tier_intervals_witness :
    getOptimalCompressionLevel (10 * MB) = -1 ∧
    getOptimalCompressionLevel (100 * MB) = 4 ∧
    getOptimalCompressionLevel (500 * MB) = 1 ∧
    getOptimalCompressionLevel 5 = 9 :=
  ⟨(effort_tier_intervals (10 * MB)).2.1 ⟨le_refl _, by decide⟩,
   (effort_tier_intervals (100 * MB)).2.2.1 ⟨le_refl _, by decide⟩,
   (effort_tier_intervals (500 * MB)).2.2.2.1 (le_refl _),
   (effort_tier_intervals 5).1 (by decide)⟩

/-! ## C6: the per-file storage method -/

/-- C6: the store-or-compress decision is a function of the lowercased
extension alone; a name whose lowercased extension lies in the fixed
already-compressed set is stored, every other name is deflated. -/
theorem storage_method_by_extension (name : String) :
    (getCompressionMethod name = zipStore ↔
      toLowerStr (extOf name) ∈
        ([".zip", ".gz", ".7z", ".rar", ".jpg", ".jpeg", ".png", ".gif", ".webp",
          ".mp3", ".mp4", ".avi", ".mkv", ".mov", ".pdf", ".docx", ".xlsx", ".pptx"]
          : List String)) ∧
    (getCompressionMethod name = zipDeflate ↔
      toLowerStr (extOf name) ∉
        ([".zip", ".gz", ".7z", ".rar", ".jpg", ".jpeg", ".png", ".gif", ".webp",
          ".mp3", ".mp4", ".avi", ".mkv", ".mov", ".pdf", ".docx", ".xlsx", ".pptx"]
          : List String)) := by
  by_cases h : toLowerStr (extOf name) ∈ noCompressExts
  · have hm : getCompressionMethod name = zipStore := by
      unfold getCompressionMethod
      rw [if_pos h]
    exact ⟨⟨fun _ => h, fun _ => hm⟩,
      ⟨fun hd => absurd (hm.symm.trans hd) (by decide), fun hn => absurd h hn⟩⟩
  · have hm : getCompressionMethod name = zipDeflate := by
      unfold getCompressionMethod
      rw [if_neg h]
    exact ⟨⟨fun hs => absurd (hm.symm.trans hs) (by decide), fun hmem => absurd hmem h⟩,
      ⟨fun _ => h, fun _ => hm⟩⟩

/-- Witness for C6: a stored jpeg (case-insensitively), a deflated text
file. -/
theorem storage_method_by_extension_witness :
    getCompressionMethod "photo.JPG" = zipStore ∧
    getCompressionMethod "notes.txt" = zipDeflate :=
  ⟨(storage_method_by_extension "photo.JPG").1.mpr (by decide),
   (storage_method_by_extension "notes.txt").2.mpr (by decide)⟩

/-- The entry list of a zip container on disk. -/
def zipFileEntries : FileContent → List ZipEntry
  | .zipData es _ => es
  | _ => []

/-- The entry list of a tar.gz container on disk. -/
def gzFileEntries : FileContent → List TarEntry
  | .gzData es => es
  | _ => []

/-! ## C1: verification immediately after creation -/

/-- C1: immediately after creation, VerifyChecksum finds the persisted
digest (zip comment, tar.gz sidecar) and never mutates the archive, but
the zip verdict is false, not true: the stored digest hashes the archive
as it was before addChecksumToZip rewrote it with the comment, while
verification hashes the rewritten archive, and the two differ for any
digest function without a collision between the two contents.  The tar.gz
verdict is true as claimed, since that archive is not rewritten after
being hashed. -/
theorem verify_after_create (hash : FileContent → String) (t : FsTree)
    (srcDir zipPath gzipPath : String)
    (hz : toLowerStr (extOf zipPath) = ".zip")
    (hcol : hash (.zipData (zipEntriesOf srcDir t)
        ("SHA256: " ++ hash (.zipData (zipEntriesOf srcDir t) "")))
      ≠ hash (.zipData (zipEntriesOf srcDir t) ""))
    (hg : toLowerStr (extOf gzipPath) = ".gz")
    (hns : (hash (.gzData (tarEntriesOf t))).data.all (fun ch => !isSpaceChar ch) = true)
    (hne : hash (.gzData (tarEntriesOf t)) ≠ "") :
    zipCreateThenVerify hash t srcDir zipPath
      = .ok false (hash (.zipData (zipEntriesOf srcDir t) "")) ∧
    gzipCreateThenVerify hash t srcDir gzipPath
      = .ok true (hash (.gzData (tarEntriesOf t))) := by
  constructor
  · have hb : (hash (.zipData (zipEntriesOf srcDir t) "")
        == hash (.zipData (zipEntriesOf srcDir t)
            ("SHA256: " ++ hash (.zipData (zipEntriesOf srcDir t) "")))) = false :=
      beq_false_of_ne (Ne.symm hcol)
    simp only [zipCreateThenVerify, VerifyChecksum, ZipWithProgressAndFile,
      addChecksumToZip, calculateFileChecksum, hz, if_pos rfl]
    simp only [if_pos rfl, hasPrefixStr_append, if_true, trimPrefixStr_append, hb]
  · have hsha : gzipPath ≠ gzipPath ++ ".sha256" :=
      ne_append_of_data_nonempty _ _ (by decide)
    simp only [gzipCreateThenVerify, VerifyChecksum, GzipWithProgressAndFile,
      writeChecksumFile, calculateFileChecksum, hg]
    rw [if_neg (by decide : ¬((".gz" : String) = ".zip"))]
    simp [hsha, fields_sidecar_head _ _ hns hne]

/-- Witness for C1: an empty source directory, archives a.zip and
a.tar.gz, the demo digest function. -/
theorem verify_after_create_witness :
    zipCreateThenVerify demoHash (.dir "d" []) "d" "a.zip"
      = .ok false (demoHash (.zipData (zipEntriesOf "d" (.dir "d" [])) "")) ∧
    gzipCreateThenVerify demoHash (.dir "d" []) "d" "a.tar.gz"
      = .ok true (demoHash (.gzData (tarEntriesOf (.dir "d" [])))) := by
  have h := verify_after_create demoHash (.dir "d" []) "d" "a.zip" "a.tar.gz"
    (by decide)
    (by simp [zipEntriesOf, walkJobs, jobsOfList, fileDatas, demoHash])
    (by decide)
    (by simp [tarEntriesOf, walkJobs, jobsOfList, fileDatas, demoHash]; decide)
    (by simp [tarEntriesOf, walkJobs, jobsOfList, fileDatas, demoHash])
  exact h

/-! ## C2: unreadable source files are skipped, but the returned stats
are the pre-scan totals -/

/-- Counterexample to C2 as stated: a tree with a readable 3-byte file
and an unreadable 2-byte file.  The run succeeds, warns, and archives one
file of 3 bytes, yet the returned stats report 2 files and 5 bytes — the
pre-scan counts, not the counts over the files actually archived. -/
theorem creation_stats_pre_scan_cex :
    (ZipWithProgressAndFile demoHash
        (.dir "d" [.file "a" [1, 2, 3] true, .file "b" [4, 5] false])
        "d" "out.zip").stats.fileCount = 2 ∧
    (ZipWithProgressAndFile demoHash
        (.dir "d" [.file "a" [1, 2, 3] true, .file "b" [4, 5] false])
        "d" "out.zip").stats.totalBytes = 5 ∧
    ((zipFileEntries (ZipWithProgressAndFile demoHash
        (.dir "d" [.file "a" [1, 2, 3] true, .file "b" [4, 5] false])
        "d" "out.zip").file).filter (fun e => !e.isDir)).length = 1 ∧
    ((zipFileEntries (ZipWithProgressAndFile demoHash
        (.dir "d" [.file "a" [1, 2, 3] true, .file "b" [4, 5] false])
        "d" "out.zip").file).map (fun e => e.data.length)).sum = 3 ∧
    (ZipWithProgressAndFile demoHash
        (.dir "d" [.file "a" [1, 2, 3] true, .file "b" [4, 5] false])
        "d" "out.zip").warnings = ["Warning: skipping d/b"] := by
  simp [ZipWithProgressAndFile, scanDirectory, walkJobs, jobsOfList, fileDatas,
    jobsSize, jobsFileCount, jobBytes, warningsOf, jobPath, relSlash, mkZipEntry,
    zipEntriesOf, addChecksumToZip, zipFileEntries, calculateFileChecksum]

/-- C2 amended: a worker that cannot read a source file warns and skips
it and the run still completes, but the returned ArchiveStats keep the
pre-scan totals over every file, unreadable ones included; only the
archive contents (and the progress sum) reflect the omission. -/
theorem creation_skips_unreadable (hash : FileContent → String)
    (dname srcDir zipPath gzipPath : String) (cs : List FsTree) :
    (ZipWithProgressAndFile hash (.dir dname cs) srcDir zipPath).stats.totalBytes
      = jobsSize (walkJobs (.dir dname cs)) ∧
    (ZipWithProgressAndFile hash (.dir dname cs) srcDir zipPath).stats.fileCount
      = ((walkJobs (.dir dname cs)).filter (fun j => !j.isDir)).length ∧
    ((zipFileEntries (ZipWithProgressAndFile hash (.dir dname cs) srcDir zipPath).file).filter
        (fun e => !e.isDir)).length
      = ((walkJobs (.dir dname cs)).filter (fun j => !j.isDir && j.readable)).length ∧
    (ZipWithProgressAndFile hash (.dir dname cs) srcDir zipPath).warnings
      = ((walkJobs (.dir dname cs)).filter (fun j => !j.isDir && !j.readable)).map
          (fun j => "Warning: skipping " ++ jobPath srcDir j) ∧
    (GzipWithProgressAndFile hash (.dir dname cs) srcDir gzipPath).stats.totalBytes
      = jobsSize (walkJobs (.dir dname cs)) ∧
    (GzipWithProgressAndFile hash (.dir dname cs) srcDir gzipPath).stats.fileCount
      = ((walkJobs (.dir dname cs)).filter (fun j => !j.isDir)).length ∧
    (GzipWithProgressAndFile hash (.dir dname cs) srcDir gzipPath).warnings
      = ((walkJobs (.dir dname cs)).filter (fun j => !j.isDir && !j.readable)).map
          (fun j => "Warning: skipping " ++ jobPath srcDir j) := by
  refine ⟨rfl, rfl, ?_, rfl, rfl, rfl, rfl⟩
  show ((zipEntriesOf srcDir (.dir dname cs)).filter (fun e => !e.isDir)).length = _
  unfold zipEntriesOf fileDatas
  rw [List.filter_map, List.length_map, List.filter_filter]
  congr 1
  apply List.filter_congr
  intro j _
  cases hj : j.isDir <;> simp [mkZipEntry, hj, Function.comp]

/-! ## C9: the filtering predicate is never consulted -/

/-- C9: scanning and creation include every reachable entry; in
particular an entry that shouldSkip would match (by its base name) is
archived all the same whenever it is a directory or a readable file, for
both containers, and the scanned totals count it. -/
theorem shouldSkip_never_consulted (hash : FileContent → String) (t : FsTree)
    (srcDir zipPath gzipPath : String) :
    (∀ j ∈ walkJobs t, (j.isDir || j.readable) = true →
      mkZipEntry srcDir j
          ∈ zipFileEntries (ZipWithProgressAndFile hash t srcDir zipPath).file ∧
      mkTarEntry j
          ∈ gzFileEntries (GzipWithProgressAndFile hash t srcDir gzipPath).file) ∧
    (∀ j ∈ walkJobs t, shouldSkip (j.rel.getLastD "") j.isDir = true →
      (j.isDir || j.readable) = true →
      mkZipEntry srcDir j
          ∈ zipFileEntries (ZipWithProgressAndFile hash t srcDir zipPath).file) ∧
    (∀ j ∈ walkJobs t, shouldSkip (j.rel.getLastD "") j.isDir = true →
      jobBytes j ≤ jobsSize (walkJobs t)) := by
  have hmem : ∀ j ∈ walkJobs t, (j.isDir || j.readable) = true →
      mkZipEntry srcDir j
        ∈ zipFileEntries (ZipWithProgressAndFile hash t srcDir zipPath).file := by
    intro j hj hcond
    show mkZipEntry srcDir j ∈ zipEntriesOf srcDir t
    exact List.mem_map_of_mem _ (List.mem_filter.mpr ⟨hj, hcond⟩)
  refine ⟨fun j hj hcond => ⟨hmem j hj hcond, ?_⟩, fun j hj _ hcond => hmem j hj hcond,
    fun j hj _ => ?_⟩
  · show mkTarEntry j ∈ tarEntriesOf t
    exact List.mem_map_of_mem _ (List.mem_filter.mpr ⟨hj, hcond⟩)
  · unfold jobsSize
    exact List.le_sum_of_mem (List.mem_map_of_mem _ hj)

/-- Witness for C9: a temp-suffixed file and a node_modules directory,
both matched by shouldSkip, both archived and both scanned. -/
theorem shouldSkip_never_consulted_witness :
    shouldSkip "junk.tmp" false = true ∧
    shouldSkip "node_modules" true = true ∧
    mkZipEntry "d" ⟨["junk.tmp"], false, [7], true⟩
      ∈ zipFileEntries (ZipWithProgressAndFile demoHash
          (.dir "d" [.file "junk.tmp" [7] true, .dir "node_modules" []])
          "d" "out.zip").file ∧
    mkZipEntry "d" ⟨["node_modules"], true, [], true⟩
      ∈ zipFileEntries (ZipWithProgressAndFile demoHash
          (.dir "d" [.file "junk.tmp" [7] true, .dir "node_modules" []])
          "d" "out.zip").file ∧
    (ZipWithProgressAndFile demoHash
        (.dir "d" [.file "junk.tmp" [7] true, .dir "node_modules" []])
        "d" "out.zip").stats.fileCount = 1 := by
  refine ⟨by decide, by decide, ?_, ?_, ?_⟩
  · exact ((shouldSkip_never_consulted demoHash
      (.dir "d" [.file "junk.tmp" [7] true, .dir "node_modules" []])
      "d" "out.zip" "out.tar.gz").1 ⟨["junk.tmp"], false, [7], true⟩
      (by simp [walkJobs, jobsOfList]) (by decide)).1
  · exact ((shouldSkip_never_consulted demoHash
      (.dir "d" [.file "junk.tmp" [7] true, .dir "node_modules" []])
      "d" "out.zip" "out.tar.gz").1 ⟨["node_modules"], true, [], true⟩
      (by simp [walkJobs, jobsOfList]) (by decide)).1
  · simp [ZipWithProgressAndFile, scanDirectory, walkJobs, jobsOfList,
      jobsFileCount, calculateFileChecksum]

/-! ## C4: entry names inside the containers -/

/-- Counterexample to C4 as stated: a single subdirectory.  The tar.gz
writer overwrites the header name tar.FileInfoHeader built (which did end
in a separator) with the bare slashed relative path, so the directory
entry is named "sub" with no trailing separator. -/
theorem tar_dir_entry_no_trailing_separator_cex :
    gzFileEntries (GzipWithProgressAndFile demoHash (.dir "d" [.dir "sub" []])
        "d" "a.tar.gz").file = [⟨"sub", true, []⟩] ∧
    hasSuffixStr "sub" "/" = false := by
  constructor
  · simp [GzipWithProgressAndFile, gzFileEntries, tarEntriesOf, walkJobs,
      jobsOfList, fileDatas, mkTarEntry, relSlash, calculateFileChecksum]
  · decide

/-- C4 amended: every entry of either container is named by the
forward-slash relative path of its source entry; the zip writer appends
the trailing separator to directory entries, the tar.gz writer does not
(there directoryness is carried only by the header type flag). -/
theorem entry_names_slash_relative (hash : FileContent → String) (t : FsTree)
    (srcDir zipPath gzipPath : String) :
    (∀ e ∈ zipFileEntries (ZipWithProgressAndFile hash t srcDir zipPath).file,
      (e.isDir = true → hasSuffixStr e.name "/" = true ∧
        ∃ j ∈ walkJobs t, j.isDir = true ∧ e.name = relSlash j.rel ++ "/") ∧
      (e.isDir = false →
        ∃ j ∈ walkJobs t, j.isDir = false ∧ e.name = relSlash j.rel)) ∧
    (∀ e ∈ gzFileEntries (GzipWithProgressAndFile hash t srcDir gzipPath).file,
      ∃ j ∈ walkJobs t, e.isDir = j.isDir ∧ e.name = relSlash j.rel) := by
  constructor
  · intro e he
    obtain ⟨j, hjf, hje⟩ := List.mem_map.mp he
    have hjw : j ∈ walkJobs t := List.mem_of_mem_filter hjf
    cases hj : j.isDir
    · have hne : e = ⟨relSlash j.rel, false, getCompressionMethod (jobPath srcDir j),
          j.content⟩ := by rw [← hje]; simp [mkZipEntry, hj]
      subst hne
      exact ⟨fun hcon => by simp at hcon, fun _ => ⟨j, hjw, hj, rfl⟩⟩
    · have hne : e = ⟨relSlash j.rel ++ "/", true, zipStore, []⟩ := by
        rw [← hje]; simp [mkZipEntry, hj]
      subst hne
      exact ⟨fun _ => ⟨hasSuffixStr_append _ _, j, hjw, hj, rfl⟩,
        fun hcon => by simp at hcon⟩
  · intro e he
    obtain ⟨j, hjf, hje⟩ := List.mem_map.mp he
    have hjw : j ∈ walkJobs t := List.mem_of_mem_filter hjf
    exact ⟨j, hjw, by rw [← hje]; simp [mkTarEntry], by rw [← hje]; simp [mkTarEntry]⟩

/-! ## C8: creating from an empty directory -/

/-- C8: creation from an empty source directory succeeds with zero stats
and still yields a structurally valid archive on which VerifyChecksum
runs to a verdict rather than an error, for both containers (the tar.gz
verdict is true; the zip verdict is the comment-rewrite comparison). -/
theorem empty_directory_archive (hash : FileContent → String) (dname srcDir : String)
    (hns : (hash (.gzData [])).data.all (fun ch => !isSpaceChar ch) = true)
    (hne : hash (.gzData []) ≠ "") :
    (scanDirectory (.dir dname [])).totalBytes = 0 ∧
    (scanDirectory (.dir dname [])).fileCount = 0 ∧
    (ZipWithProgressAndFile hash (.dir dname []) srcDir "a.zip").stats.totalBytes = 0 ∧
    (ZipWithProgressAndFile hash (.dir dname []) srcDir "a.zip").stats.fileCount = 0 ∧
    zipFileEntries (ZipWithProgressAndFile hash (.dir dname []) srcDir "a.zip").file = [] ∧
    (GzipWithProgressAndFile hash (.dir dname []) srcDir "a.tar.gz").stats.totalBytes = 0 ∧
    (GzipWithProgressAndFile hash (.dir dname []) srcDir "a.tar.gz").stats.fileCount = 0 ∧
    gzFileEntries (GzipWithProgressAndFile hash (.dir dname []) srcDir "a.tar.gz").file = [] ∧
    (∃ b, zipCreateThenVerify hash (.dir dname []) srcDir "a.zip"
      = .ok b (hash (.zipData [] ""))) ∧
    gzipCreateThenVerify hash (.dir dname []) srcDir "a.tar.gz"
      = .ok true (hash (.gzData [])) := by
  have hwalk : walkJobs (.dir dname []) = [] := by simp [walkJobs, jobsOfList]
  have hzen : zipEntriesOf srcDir (.dir dname []) = [] := by
    simp [zipEntriesOf, hwalk, fileDatas]
  have hten : tarEntriesOf (.dir dname []) = [] := by
    simp [tarEntriesOf, hwalk, fileDatas]
  refine ⟨?_, ?_, ?_, ?_, ?_, ?_, ?_, ?_, ?_, ?_⟩
  · simp [scanDirectory, hwalk, jobsSize]
  · simp [scanDirectory, hwalk, jobsFileCount]
  · simp [ZipWithProgressAndFile, scanDirectory, hwalk, jobsSize]
  · simp [ZipWithProgressAndFile, scanDirectory, hwalk, jobsFileCount]
  · show zipEntriesOf srcDir (.dir dname []) = []
    exact hzen
  · simp [GzipWithProgressAndFile, scanDirectory, hwalk, jobsSize]
  · simp [GzipWithProgressAndFile, scanDirectory, hwalk, jobsFileCount]
  · show tarEntriesOf (.dir dname []) = []
    exact hten
  · refine ⟨hash (.zipData [] "")
        == hash (.zipData [] ("SHA256: " ++ hash (.zipData [] ""))), ?_⟩
    simp only [zipCreateThenVerify, VerifyChecksum, ZipWithProgressAndFile,
      addChecksumToZip, calculateFileChecksum, hzen]
    rw [if_pos (by decide : toLowerStr (extOf "a.zip") = ".zip")]
    simp only [if_pos rfl, hasPrefixStr_append, if_true, trimPrefixStr_append]
  · have hsha : ("a.tar.gz" : String) ≠ "a.tar.gz" ++ ".sha256" :=
      ne_append_of_data_nonempty _ _ (by decide)
    simp only [gzipCreateThenVerify, VerifyChecksum, GzipWithProgressAndFile,
      writeChecksumFile, calculateFileChecksum, hten]
    rw [if_neg (by decide : ¬(toLowerStr (extOf "a.tar.gz") = ".zip"))]
    rw [if_pos (Or.inl (by decide : toLowerStr (extOf "a.tar.gz") = ".gz"))]
    simp [hsha, fields_sidecar_head _ _ hns hne]

/-- Witness for C8 at the demo digest function. -/
theorem empty_directory_archive_witness :
    (ZipWithProgressAndFile demoHash (.dir "d" []) "d" "a.zip").stats.fileCount = 0 ∧
    gzipCreateThenVerify demoHash (.dir "d" []) "d" "a.tar.gz"
      = .ok true (demoHash (.gzData [])) :=
  ⟨(empty_directory_archive demoHash "d" "d" (by decide) (by decide)).2.2.2.1,
   (empty_directory_archive demoHash "d" "d" (by decide) (by decide)).2.2.2.2.2.2.2.2.2⟩

/-! ## C10: the callback-less wrappers -/

/-- C10: every wrapper is the callback-less image of the function it
delegates to: Zip and Gzip run the WithProgress variants with a nil
callback and return their error; ZipWithProgress and GzipWithProgress
produce the stats, archive and warnings of the AndFile variants and
forward each callback invocation with the current-file argument dropped,
invoking the caller callback only when one was supplied; Extract and
ExtractGzip likewise gate only the callback trace, never the stats,
writes or error. -/
theorem wrappers_delegate (hash : FileContent → String) (t : FsTree)
    (srcDir zipPath gzipPath destDir : String) (b : Bool) (f : FileContent) :
    Zip hash t srcDir zipPath = ZipWithProgress hash t srcDir zipPath false ∧
    (ZipWithProgress hash t srcDir zipPath b).stats
      = (ZipWithProgressAndFile hash t srcDir zipPath).stats ∧
    (ZipWithProgress hash t srcDir zipPath b).file
      = (ZipWithProgressAndFile hash t srcDir zipPath).file ∧
    (ZipWithProgress hash t srcDir zipPath b).warnings
      = (ZipWithProgressAndFile hash t srcDir zipPath).warnings ∧
    (ZipWithProgress hash t srcDir zipPath true).events
      = (ZipWithProgressAndFile hash t srcDir zipPath).events.map (fun e => (e.1, e.2.1)) ∧
    (ZipWithProgress hash t srcDir zipPath false).events = [] ∧
    Gzip hash t srcDir gzipPath = GzipWithProgress hash t srcDir gzipPath false ∧
    (GzipWithProgress hash t srcDir gzipPath b).stats
      = (GzipWithProgressAndFile hash t srcDir gzipPath).stats ∧
    (GzipWithProgress hash t srcDir gzipPath b).file
      = (GzipWithProgressAndFile hash t srcDir gzipPath).file ∧
    (GzipWithProgress hash t srcDir gzipPath b).sidecar
      = (GzipWithProgressAndFile hash t srcDir gzipPath).sidecar ∧
    (GzipWithProgress hash t srcDir gzipPath true).events
      = (GzipWithProgressAndFile hash t srcDir gzipPath).events.map (fun e => (e.1, e.2.1)) ∧
    (GzipWithProgress hash t srcDir gzipPath false).events = [] ∧
    Extract f destDir = (ExtractWithProgress f destDir false).err ∧
    (ExtractWithProgress f destDir b).err = (ExtractWithProgressCore f destDir).err ∧
    (ExtractWithProgress f destDir b).stats = (ExtractWithProgressCore f destDir).stats ∧
    (ExtractWithProgress f destDir b).writes = (ExtractWithProgressCore f destDir).writes ∧
    (ExtractWithProgress f destDir true).events = (ExtractWithProgressCore f destDir).events ∧
    (ExtractWithProgress f destDir false).events = [] ∧
    ExtractGzip f destDir = (ExtractGzipWithProgress f destDir false).err ∧
    (ExtractGzipWithProgress f destDir b).err = (ExtractGzipWithProgressCore f destDir).err ∧
    (ExtractGzipWithProgress f destDir b).stats
      = (ExtractGzipWithProgressCore f destDir).stats ∧
    (ExtractGzipWithProgress f destDir b).writes
      = (ExtractGzipWithProgressCore f destDir).writes ∧
    (ExtractGzipWithProgress f destDir true).events
      = (ExtractGzipWithProgressCore f destDir).events := by
  refine ⟨rfl, rfl, rfl, rfl, rfl, rfl, rfl, rfl, rfl, rfl, rfl, rfl, rfl,
    rfl, rfl, rfl, rfl, rfl, rfl, rfl, rfl, rfl, rfl⟩

/-! ## Phase lemmas for the extraction pipelines -/

/-- Every write of the directory pass comes from an entry that passed the
path guard. -/
theorem dirPhase_writes_local (destDir : String) (es : List ZipEntry) :
    ∀ w ∈ (dirPhase destDir es).writes, isLocalPath w.entryName = true := by
  induction es with
  | nil => intro w hw; simp [dirPhase] at hw
  | cons e rest ih =>
      intro w hw
      by_cases hd : e.isDir = true
      · by_cases hl : isLocalPath e.name = true
        · simp only [dirPhase, hd, hl, if_true] at hw
          rcases List.mem_cons.mp hw with h | h
          · rw [h]; exact hl
          · exact ih w h
        · simp only [dirPhase, hd, if_true, hl, if_false] at hw
          simp at hw
      · simp only [dirPhase, hd, if_false] at hw
        exact ih w hw

/-- The directory pass succeeds exactly when every directory entry passes
the path guard. -/
theorem dirPhase_err_none_iff (destDir : String) (es : List ZipEntry) :
    (dirPhase destDir es).err = none
      ↔ ∀ e ∈ es, e.isDir = true → isLocalPath e.name = true := by
  induction es with
  | nil => simp [dirPhase]
  | cons e rest ih =>
      by_cases hd : e.isDir = true
      · by_cases hl : isLocalPath e.name = true
        · have hstep : (dirPhase destDir (e :: rest)).err = (dirPhase destDir rest).err := by
            simp [dirPhase, hd, hl]
          rw [hstep, ih]
          constructor
          · intro h a ha had
            rcases List.mem_cons.mp ha with h1 | h1
            · rw [h1]; exact hl
            · exact h a h1 had
          · intro h a ha had
            exact h a (List.mem_cons_of_mem _ ha) had
        · have hstep : (dirPhase destDir (e :: rest)).err
              = some ("invalid file path: " ++ e.name) := by
            simp [dirPhase, hd, hl]
          rw [hstep]
          constructor
          · intro h; cases h
          · intro h
            exact absurd (h e (List.mem_cons_self _ _) hd) hl
      · have hstep : (dirPhase destDir (e :: rest)).err = (dirPhase destDir rest).err := by
          simp [dirPhase, hd]
        rw [hstep, ih]
        constructor
        · intro h a ha had
          rcases List.mem_cons.mp ha with h1 | h1
          · rw [h1] at had; exact absurd had hd
          · exact h a h1 had
        · intro h a ha had
          exact h a (List.mem_cons_of_mem _ ha) had

/-- A directory-pass error names an offending directory entry. -/
theorem dirPhase_err_names (destDir : String) (es : List ZipEntry) (m : String)
    (h : (dirPhase destDir es).err = some m) :
    ∃ e ∈ es, e.isDir = true ∧ isLocalPath e.name = false
      ∧ m = "invalid file path: " ++ e.name := by
  induction es with
  | nil => simp [dirPhase] at h
  | cons e rest ih =>
      by_cases hd : e.isDir = true
      · by_cases hl : isLocalPath e.name = true
        · simp only [dirPhase, hd, hl, if_true] at h
          obtain ⟨a, ha, hprop⟩ := ih h
          exact ⟨a, List.mem_cons_of_mem _ ha, hprop⟩
        · simp only [dirPhase, hd, if_true, hl, if_false] at h
          refine ⟨e, List.mem_cons_self _ _, hd, by simp [hl], ?_⟩
          cases h
          rfl
      · simp only [dirPhase, hd, if_false] at h
        obtain ⟨a, ha, hprop⟩ := ih h
        exact ⟨a, List.mem_cons_of_mem _ ha, hprop⟩

/-- Every write of the file pass comes from an entry that passed the path
guard. -/
theorem filePhase_writes_local (destDir : String) (total : Nat) (es : List ZipEntry) :
    ∀ done, ∀ w ∈ (filePhase destDir total es done).writes,
      isLocalPath w.entryName = true := by
  induction es with
  | nil => intro done w hw; simp [filePhase] at hw
  | cons e rest ih =>
      intro done w hw
      by_cases hd : e.isDir = true
      · simp only [filePhase, hd, if_true] at hw
        exact ih done w hw
      · by_cases hl : isLocalPath e.name = true
        · simp only [filePhase, hd, if_false, hl, if_true] at hw
          rcases List.mem_cons.mp hw with h1 | h1
          · rw [h1]; exact hl
          · rcases List.mem_cons.mp h1 with h2 | h2
            · rw [h2]; exact hl
            · exact ih (done + e.data.length) w h2
        · simp only [filePhase, hd, if_false, hl] at hw
          simp at hw

/-- The file pass succeeds exactly when every regular-file entry passes
the path guard. -/
theorem filePhase_err_none_iff (destDir : String) (total : Nat) (es : List ZipEntry) :
    ∀ done, (filePhase destDir total es done).err = none
      ↔ ∀ e ∈ es, e.isDir = false → isLocalPath e.name = true := by
  induction es with
  | nil => intro done; simp [filePhase]
  | cons e rest ih =>
      intro done
      by_cases hd : e.isDir = true
      · have hstep : (filePhase destDir total (e :: rest) done).err
            = (filePhase destDir total rest done).err := by simp [filePhase, hd]
        rw [hstep, ih done]
        constructor
        · intro h a ha had
          rcases List.mem_cons.mp ha with h1 | h1
          · rw [h1] at had
            rw [had] at hd
            simp at hd
          · exact h a h1 had
        · intro h a ha had
          exact h a (List.mem_cons_of_mem _ ha) had
      · by_cases hl : isLocalPath e.name = true
        · have hstep : (filePhase destDir total (e :: rest) done).err
              = (filePhase destDir total rest (done + e.data.length)).err := by
            simp [filePhase, hd, hl]
          rw [hstep, ih (done + e.data.length)]
          constructor
          · intro h a ha had
            rcases List.mem_cons.mp ha with h1 | h1
            · rw [h1]; exact hl
            · exact h a h1 had
          · intro h a ha had
            exact h a (List.mem_cons_of_mem _ ha) had
        · have hstep : (filePhase destDir total (e :: rest) done).err
              = some ("invalid file path: " ++ e.name) := by simp [filePhase, hd, hl]
          rw [hstep]
          constructor
          · intro h; cases h
          · intro h
            exact absurd (h e (List.mem_cons_self _ _) (by simpa using hd)) hl

/-- A file-pass error names an offending regular-file entry. -/
theorem filePhase_err_names (destDir : String) (total : Nat) (es : List ZipEntry)
    (m : String) :
    ∀ done, (filePhase destDir total es done).err = some m →
      ∃ e ∈ es, e.isDir = false ∧ isLocalPath e.name = false
        ∧ m = "invalid file path: " ++ e.name := by
  induction es with
  | nil => intro done h; simp [filePhase] at h
  | cons e rest ih =>
      intro done h
      by_cases hd : e.isDir = true
      · rw [show (filePhase destDir total (e :: rest) done).err
            = (filePhase destDir total rest done).err from by simp [filePhase, hd]] at h
        obtain ⟨a, ha, hprop⟩ := ih done h
        exact ⟨a, List.mem_cons_of_mem _ ha, hprop⟩
      · by_cases hl : isLocalPath e.name = true
        · rw [show (filePhase destDir total (e :: rest) done).err
              = (filePhase destDir total rest (done + e.data.length)).err from by
            simp [filePhase, hd, hl]] at h
          obtain ⟨a, ha, hprop⟩ := ih (done + e.data.length) h
          exact ⟨a, List.mem_cons_of_mem _ ha, hprop⟩
        · rw [show (filePhase destDir total (e :: rest) done).err
              = some ("invalid file path: " ++ e.name) from by simp [filePhase, hd, hl]] at h
          refine ⟨e, List.mem_cons_self _ _, by simpa using hd, by simpa using hl, ?_⟩
          cases h
          rfl

/-- Bounds on the progress values of the file pass: each reported done is
between the starting done and the starting done plus the remaining
payload, and the total is the advertised total. -/
theorem filePhase_events_bounds (destDir : String) (total : Nat) (es : List ZipEntry) :
    ∀ done, ∀ ev ∈ (filePhase destDir total es done).events,
      done ≤ ev.1 ∧ ev.1 ≤ done + zipTotalBytes es ∧ ev.2 = total := by
  induction es with
  | nil => intro done ev hev; simp [filePhase] at hev
  | cons e rest ih =>
      intro done ev hev
      by_cases hd : e.isDir = true
      · have hz : zipTotalBytes (e :: rest) = zipTotalBytes rest := by
          simp [zipTotalBytes, List.filter_cons, hd]
        simp only [filePhase, hd, if_true] at hev
        obtain ⟨h1, h2, h3⟩ := ih done ev hev
        exact ⟨h1, by rw [hz]; exact h2, h3⟩
      · have hz : zipTotalBytes (e :: rest) = e.data.length + zipTotalBytes rest := by
          simp [zipTotalBytes, List.filter_cons, hd]
        by_cases hl : isLocalPath e.name = true
        · simp only [filePhase, hd, if_false, hl, if_true] at hev
          rcases List.mem_cons.mp hev with h1 | h1
          · rw [h1]
            exact ⟨Nat.le_add_right _ _, by rw [hz]; omega, rfl⟩
          · obtain ⟨ha, hb, hc⟩ := ih (done + e.data.length) ev h1
            exact ⟨by omega, by rw [hz]; omega, hc⟩
        · simp only [filePhase, hd, if_false, hl] at hev
          simp at hev

/-- The progress values of the file pass are nondecreasing. -/
theorem filePhase_events_pairwise (destDir : String) (total : Nat) (es : List ZipEntry) :
    ∀ done, (filePhase destDir total es done).events.Pairwise (fun a b => a.1 ≤ b.1) := by
  induction es with
  | nil => intro done; simp [filePhase]
  | cons e rest ih =>
      intro done
      by_cases hd : e.isDir = true
      · simp only [filePhase, hd, if_true]
        exact ih done
      · by_cases hl : isLocalPath e.name = true
        · simp only [filePhase, hd, if_false, hl, if_true]
          refine List.Pairwise.cons ?_ (ih _)
          intro b hb
          exact (filePhase_events_bounds destDir total rest (done + e.data.length) b hb).1
        · simp [filePhase, hd, hl]

/-- Every write of the tar.gz extraction loop comes from an entry that
passed the path guard. -/
theorem gzLoop_writes_local (destDir : String) (total : Nat) (es : List TarEntry) :
    ∀ done, ∀ w ∈ (gzLoop destDir total es done).writes,
      isLocalPath w.entryName = true := by
  induction es with
  | nil => intro done w hw; simp [gzLoop] at hw
  | cons e rest ih =>
      intro done w hw
      by_cases hl : isLocalPath e.name = true
      · by_cases hd : e.isDir = true
        · simp only [gzLoop, hl, if_true, hd] at hw
          rcases List.mem_cons.mp hw with h1 | h1
          · rw [h1]; exact hl
          · exact ih done w h1
        · simp only [gzLoop, hl, if_true, hd, if_false] at hw
          rcases List.mem_cons.mp hw with h1 | h1
          · rw [h1]; exact hl
          · rcases List.mem_cons.mp h1 with h2 | h2
            · rw [h2]; exact hl
            · exact ih (done + e.data.length) w h2
      · simp only [gzLoop, hl] at hw
        simp at hw

/-- The tar.gz extraction loop succeeds exactly when every entry passes
the path guard. -/
theorem gzLoop_err_none_iff (destDir : String) (total : Nat) (es : List TarEntry) :
    ∀ done, (gzLoop destDir total es done).err = none
      ↔ ∀ e ∈ es, isLocalPath e.name = true := by
  induction es with
  | nil => intro done; simp [gzLoop]
  | cons e rest ih =>
      intro done
      by_cases hl : isLocalPath e.name = true
      · by_cases hd : e.isDir = true
        · have hstep : (gzLoop destDir total (e :: rest) done).err
              = (gzLoop destDir total rest done).err := by simp [gzLoop, hl, hd]
          rw [hstep, ih done]
          constructor
          · intro h a ha
            rcases List.mem_cons.mp ha with h1 | h1
            · rw [h1]; exact hl
            · exact h a h1
          · intro h a ha
            exact h a (List.mem_cons_of_mem _ ha)
        · have hstep : (gzLoop destDir total (e :: rest) done).err
              = (gzLoop destDir total rest (done + e.data.length)).err := by
            simp [gzLoop, hl, hd]
          rw [hstep, ih (done + e.data.length)]
          constructor
          · intro h a ha
            rcases List.mem_cons.mp ha with h1 | h1
            · rw [h1]; exact hl
            · exact h a h1
          · intro h a ha
            exact h a (List.mem_cons_of_mem _ ha)
      · have hstep : (gzLoop destDir total (e :: rest) done).err
            = some ("invalid file path: " ++ e.name) := by simp [gzLoop, hl]
        rw [hstep]
        constructor
        · intro h; cases h
        · intro h
          exact absurd (h e (List.mem_cons_self _ _)) hl

/-- A tar.gz extraction error names an offending entry. -/
theorem gzLoop_err_names (destDir : String) (total : Nat) (es : List TarEntry)
    (m : String) :
    ∀ done, (gzLoop destDir total es done).err = some m →
      ∃ e ∈ es, isLocalPath e.name = false ∧ m = "invalid file path: " ++ e.name := by
  induction es with
  | nil => intro done h; simp [gzLoop] at h
  | cons e rest ih =>
      intro done h
      by_cases hl : isLocalPath e.name = true
      · by_cases hd : e.isDir = true
        · rw [show (gzLoop destDir total (e :: rest) done).err
              = (gzLoop destDir total rest done).err from by simp [gzLoop, hl, hd]] at h
          obtain ⟨a, ha, hprop⟩ := ih done h
          exact ⟨a, List.mem_cons_of_mem _ ha, hprop⟩
        · rw [show (gzLoop destDir total (e :: rest) done).err
              = (gzLoop destDir total rest (done + e.data.length)).err from by
            simp [gzLoop, hl, hd]] at h
          obtain ⟨a, ha, hprop⟩ := ih (done + e.data.length) h
          exact ⟨a, List.mem_cons_of_mem _ ha, hprop⟩
      · rw [show (gzLoop destDir total (e :: rest) done).err
            = some ("invalid file path: " ++ e.name) from by simp [gzLoop, hl]] at h
        refine ⟨e, List.mem_cons_self _ _, by simpa using hl, ?_⟩
        cases h
        rfl

/-- Bounds on the progress values of the tar.gz loop. -/
theorem gzLoop_events_bounds (destDir : String) (total : Nat) (es : List TarEntry) :
    ∀ done, ∀ ev ∈ (gzLoop destDir total es done).events,
      done ≤ ev.1 ∧ ev.1 ≤ done + tarTotalBytes es ∧ ev.2 = total := by
  induction es with
  | nil => intro done ev hev; simp [gzLoop] at hev
  | cons e rest ih =>
      intro done ev hev
      by_cases hl : isLocalPath e.name = true
      · by_cases hd : e.isDir = true
        · have hz : tarTotalBytes (e :: rest) = tarTotalBytes rest := by
            simp [tarTotalBytes, List.filter_cons, hd]
          simp only [gzLoop, hl, if_true, hd] at hev
          obtain ⟨h1a, h1b, h1c⟩ := ih done ev hev
          exact ⟨h1a, by rw [hz]; exact h1b, h1c⟩
        · have hz : tarTotalBytes (e :: rest) = e.data.length + tarTotalBytes rest := by
            simp [tarTotalBytes, List.filter_cons, hd]
          simp only [gzLoop, hl, if_true, hd, if_false] at hev
          rcases List.mem_append.mp hev with h1 | h1
          · by_cases hlen : e.data.length > 0
            · rw [if_pos hlen] at h1
              rcases List.mem_cons.mp h1 with h2 | h2
              · rw [h2]
                exact ⟨Nat.le_add_right _ _, by rw [hz]; omega, rfl⟩
              · simp at h2
            · rw [if_neg hlen] at h1
              simp at h1
          · obtain ⟨ha, hb, hc⟩ := ih (done + e.data.length) ev h1
            exact ⟨by omega, by rw [hz]; omega, hc⟩
      · simp only [gzLoop, hl] at hev
        simp at hev

/-- The progress values of the tar.gz loop are nondecreasing. -/
theorem gzLoop_events_pairwise (destDir : String) (total : Nat) (es : List TarEntry) :
    ∀ done, (gzLoop destDir total es done).events.Pairwise (fun a b => a.1 ≤ b.1) := by
  induction es with
  | nil => intro done; simp [gzLoop]
  | cons e rest ih =>
      intro done
      by_cases hl : isLocalPath e.name = true
      · by_cases hd : e.isDir = true
        · simp only [gzLoop, hl, if_true, hd]
          exact ih done
        · have hstep : (gzLoop destDir total (e :: rest) done).events
              = (if e.data.length > 0 then [(done + e.data.length, total)] else []) ++
                (gzLoop destDir total rest (done + e.data.length)).events := by
            simp [gzLoop, hl, hd]
          rw [hstep, List.pairwise_append]
          refine ⟨?_, ih _, ?_⟩
          · by_cases hlen : e.data.length > 0
            · rw [if_pos hlen]; simp
            · rw [if_neg hlen]; simp
          · intro a ha b hb
            have hbb := (gzLoop_events_bounds destDir total rest (done + e.data.length) b hb).1
            by_cases hlen : e.data.length > 0
            · rw [if_pos hlen] at ha
              rcases List.mem_cons.mp ha with h2 | h2
              · rw [h2]; exact hbb
              · simp at h2
            · rw [if_neg hlen] at ha
              simp at ha
      · simp [gzLoop, hl]

/-- Bounds on the per-file progress values of a creation run. -/
theorem creationEvents_bounds (total : Nat) (l : List FileJob) :
    ∀ done, ∀ ev ∈ creationEvents total l done,
      done ≤ ev.1 ∧ ev.1 ≤ done + jobsSize l ∧ ev.2.1 = total := by
  induction l with
  | nil => intro done ev hev; simp [creationEvents] at hev
  | cons j rest ih =>
      intro done ev hev
      have hz : jobsSize (j :: rest) = jobBytes j + jobsSize rest := by
        simp [jobsSize]
      by_cases hd : j.isDir = true
      · have hjb : jobBytes j = 0 := by simp [jobBytes, hd]
        simp only [creationEvents, hd, if_true] at hev
        obtain ⟨h1, h2, h3⟩ := ih done ev hev
        exact ⟨h1, by rw [hz, hjb]; omega, h3⟩
      · have hjb : jobBytes j = j.content.length := by simp [jobBytes, hd]
        simp only [creationEvents, hd, if_false] at hev
        rcases List.mem_cons.mp hev with h1 | h1
        · rw [h1]
          exact ⟨Nat.le_add_right _ _, by rw [hz, hjb]; omega, rfl⟩
        · obtain ⟨ha, hb, hc⟩ := ih (done + j.content.length) ev h1
          exact ⟨by omega, by rw [hz, hjb]; omega, hc⟩

/-- The per-file progress values of a creation run are nondecreasing. -/
theorem creationEvents_pairwise (total : Nat) (l : List FileJob) :
    ∀ done, (creationEvents total l done).Pairwise (fun a b => a.1 ≤ b.1) := by
  induction l with
  | nil => intro done; simp [creationEvents]
  | cons j rest ih =>
      intro done
      by_cases hd : j.isDir = true
      · simp only [creationEvents, hd, if_true]
        exact ih done
      · simp only [creationEvents, hd, if_false]
        refine List.Pairwise.cons ?_ (ih _)
        intro b hb
        exact (creationEvents_bounds total rest (done + j.content.length) b hb).1

/-! ## C3: the path-safety guard -/

/-- C3: during either extraction, an entry whose name fails the
filepath.IsLocal guard (absolute or escaping the destination) makes the
run fail with an error naming an offending entry, and the guard runs
before any filesystem write for an entry: every mkdir or file write in
the trace is tagged with a name that passed the guard, so no write — not
even parent-directory creation — ever derives from a rejected entry. -/
theorem path_guard_blocks_traversal (zes : List ZipEntry) (tes : List TarEntry)
    (comment destZ destG : String)
    (hz : ∃ e ∈ zes, isLocalPath e.name = false)
    (hg : ∃ e ∈ tes, isLocalPath e.name = false) :
    ((ExtractWithProgress (.zipData zes comment) destZ true).err ≠ none ∧
     (∃ e ∈ zes, isLocalPath e.name = false ∧
        (ExtractWithProgress (.zipData zes comment) destZ true).err
          = some ("invalid file path: " ++ e.name)) ∧
     (∀ w ∈ (ExtractWithProgress (.zipData zes comment) destZ true).writes,
        isLocalPath w.entryName = true)) ∧
    ((ExtractGzipWithProgress (.gzData tes) destG true).err ≠ none ∧
     (∃ e ∈ tes, isLocalPath e.name = false ∧
        (ExtractGzipWithProgress (.gzData tes) destG true).err
          = some ("invalid file path: " ++ e.name)) ∧
     (∀ w ∈ (ExtractGzipWithProgress (.gzData tes) destG true).writes,
        isLocalPath w.entryName = true)) := by
  constructor
  · have hwr : (ExtractWithProgress (.zipData zes comment) destZ true).writes
        = (ExtractWithProgressCore (.zipData zes comment) destZ).writes := rfl
    have her : (ExtractWithProgress (.zipData zes comment) destZ true).err
        = (ExtractWithProgressCore (.zipData zes comment) destZ).err := rfl
    cases hdp : (dirPhase destZ zes).err with
    | some m =>
        have hce : (ExtractWithProgressCore (.zipData zes comment) destZ).err = some m := by
          simp only [ExtractWithProgressCore, hdp]
        have hcw : (ExtractWithProgressCore (.zipData zes comment) destZ).writes
            = (dirPhase destZ zes).writes := by
          simp only [ExtractWithProgressCore, hdp]
        obtain ⟨e, he, _, hel, hm⟩ := dirPhase_err_names destZ zes m hdp
        refine ⟨?_, ⟨e, he, hel, ?_⟩, ?_⟩
        · rw [her, hce]; simp
        · rw [her, hce, hm]
        · intro w hw
          rw [hwr, hcw] at hw
          exact dirPhase_writes_local destZ zes w hw
    | none =>
        cases hfp : (filePhase destZ (zipTotalBytes zes) zes 0).err with
        | some m =>
            have hce : (ExtractWithProgressCore (.zipData zes comment) destZ).err
                = some m := by
              simp only [ExtractWithProgressCore, hdp, hfp]
            have hcw : (ExtractWithProgressCore (.zipData zes comment) destZ).writes
                = (dirPhase destZ zes).writes
                  ++ (filePhase destZ (zipTotalBytes zes) zes 0).writes := by
              simp only [ExtractWithProgressCore, hdp, hfp]
            obtain ⟨e, he, _, hel, hm⟩ := filePhase_err_names destZ (zipTotalBytes zes) zes m 0 hfp
            refine ⟨?_, ⟨e, he, hel, ?_⟩, ?_⟩
            · rw [her, hce]; simp
            · rw [her, hce, hm]
            · intro w hw
              rw [hwr, hcw] at hw
              rcases List.mem_append.mp hw with h1 | h1
              · exact dirPhase_writes_local destZ zes w h1
              · exact filePhase_writes_local destZ (zipTotalBytes zes) zes 0 w h1
        | none =>
            exfalso
            obtain ⟨e, he, hel⟩ := hz
            cases hd : e.isDir with
            | true =>
                have := (dirPhase_err_none_iff destZ zes).mp hdp e he hd
                rw [this] at hel
                cases hel
            | false =>
                have := (filePhase_err_none_iff destZ (zipTotalBytes zes) zes 0).mp hfp e he hd
                rw [this] at hel
                cases hel
  · have hwr : (ExtractGzipWithProgress (.gzData tes) destG true).writes
        = (ExtractGzipWithProgressCore (.gzData tes) destG).writes := rfl
    have her : (ExtractGzipWithProgress (.gzData tes) destG true).err
        = (ExtractGzipWithProgressCore (.gzData tes) destG).err := rfl
    cases hgl : (gzLoop destG (tarTotalBytes tes) tes 0).err with
    | some m =>
        have hce : (ExtractGzipWithProgressCore (.gzData tes) destG).err = some m := by
          simp only [ExtractGzipWithProgressCore, hgl]
        have hcw : (ExtractGzipWithProgressCore (.gzData tes) destG).writes
            = (gzLoop destG (tarTotalBytes tes) tes 0).writes := by
          simp only [ExtractGzipWithProgressCore, hgl]
        obtain ⟨e, he, hel, hm⟩ := gzLoop_err_names destG (tarTotalBytes tes) tes m 0 hgl
        refine ⟨?_, ⟨e, he, hel, ?_⟩, ?_⟩
        · rw [her, hce]; simp
        · rw [her, hce, hm]
        · intro w hw
          rw [hwr, hcw] at hw
          exact gzLoop_writes_local destG (tarTotalBytes tes) tes 0 w hw
    | none =>
        exfalso
        obtain ⟨e, he, hel⟩ := hg
        have := (gzLoop_err_none_iff destG (tarTotalBytes tes) tes 0).mp hgl e he
        rw [this] at hel
        cases hel

/-- Witness for C3: a dot-dot traversal name in a zip, an absolute name
in a tar.gz; both extractions fail. -/
theorem path_guard_blocks_traversal_witness :
    (ExtractWithProgress (.zipData [⟨"../evil", false, 8, [1]⟩] "") "dest" true).err
      ≠ none ∧
    (ExtractGzipWithProgress (.gzData [⟨"/abs", false, [2]⟩]) "dest" true).err
      ≠ none :=
  ⟨(path_guard_blocks_traversal [⟨"../evil", false, 8, [1]⟩] [⟨"/abs", false, [2]⟩]
      "" "dest" "dest" (by decide) (by decide)).1.1,
   (path_guard_blocks_traversal [⟨"../evil", false, 8, [1]⟩] [⟨"/abs", false, [2]⟩]
      "" "dest" "dest" (by decide) (by decide)).2.1⟩

/-! ## C7: the progress contract -/

/-- The progress contract over the sequence of reported done values: the
callback fires first at zero (before any unit of work) and last at the
final value (after the operation), the values never decrease, none
exceeds the advertised total, and there are at least the initial and
final calls even for an empty payload. -/
def progressOk (total finalDone : Nat) (dones : List Nat) : Prop :=
  dones.head? = some 0 ∧ dones.getLast? = some finalDone ∧
  dones.Pairwise (fun a b => a ≤ b) ∧ (∀ d ∈ dones, d ≤ total) ∧ 2 ≤ dones.length

/-- Assembling the contract for a trace of the shape the pipelines emit:
an initial zero, bounded nondecreasing middle values, a final value. -/
theorem progressOk_build (total fin : Nat) (mid : List Nat)
    (hb : ∀ d ∈ mid, d ≤ fin) (hp : mid.Pairwise (fun a b => a ≤ b))
    (hf : fin ≤ total) :
    progressOk total fin (0 :: (mid ++ [fin])) := by
  refine ⟨rfl, ?_, ?_, ?_, ?_⟩
  · rw [show (0 :: (mid ++ [fin])) = (0 :: mid) ++ [fin] from rfl]
    exact List.getLast?_concat _
  · refine List.Pairwise.cons (fun b _ => Nat.zero_le _) ?_
    rw [List.pairwise_append]
    refine ⟨hp, List.pairwise_singleton _ _, ?_⟩
    intro a ha b hbm
    have : b = fin := by simpa using hbm
    rw [this]
    exact hb a ha
  · intro d hd
    rcases List.mem_cons.mp hd with h | h
    · rw [h]; exact Nat.zero_le _
    · rcases List.mem_append.mp h with h2 | h2
      · exact le_trans (hb d h2) hf
      · have : d = fin := by simpa using h2
        rw [this]; exact hf
  · simp

/-- Filtering a job list cannot grow its byte total. -/
theorem jobsSize_filter_le (p : FileJob → Bool) (l : List FileJob) :
    jobsSize (l.filter p) ≤ jobsSize l := by
  induction l with
  | nil => exact le_refl _
  | cons j rest ih =>
      rw [List.filter_cons]
      by_cases hp : p j = true
      · rw [if_pos hp]
        show jobBytes j + jobsSize (rest.filter p) ≤ jobBytes j + jobsSize rest
        exact Nat.add_le_add_left ih _
      · rw [if_neg hp]
        show jobsSize (rest.filter p) ≤ jobBytes j + jobsSize rest
        exact le_trans ih (Nat.le_add_left _ _)

/-- The bytes actually archived never exceed the scanned total. -/
theorem fileDatas_size_le (t : FsTree) :
    jobsSize (fileDatas (walkJobs t)) ≤ (scanDirectory t).totalBytes := by
  cases t with
  | file n c r =>
      show jobsSize (fileDatas []) ≤ c.length
      simp [fileDatas, jobsSize]
  | dir n cs =>
      show jobsSize (fileDatas (walkJobs (.dir n cs))) ≤ jobsSize (walkJobs (.dir n cs))
      exact jobsSize_filter_le _ _

/-- C7: for both creations and both extractions the reported done values
start at zero before any work, never decrease, never exceed the total,
and end — reported by the unconditional final callback — at the sum over
the files actually completed: the archived bytes for creation (equal to
totalBytes when nothing was skipped) and totalBytes for an extraction
that succeeds. -/
theorem progress_invariants (hash : FileContent → String) (t : FsTree)
    (srcDir zipPath gzipPath : String) :
    progressOk (scanDirectory t).totalBytes (jobsSize (fileDatas (walkJobs t)))
      ((ZipWithProgressAndFile hash t srcDir zipPath).events.map (fun e => e.1)) ∧
    (∀ e ∈ (ZipWithProgressAndFile hash t srcDir zipPath).events,
      e.2.1 = (scanDirectory t).totalBytes) ∧
    progressOk (scanDirectory t).totalBytes (jobsSize (fileDatas (walkJobs t)))
      ((GzipWithProgressAndFile hash t srcDir gzipPath).events.map (fun e => e.1)) ∧
    (∀ dname cs, (∀ j ∈ walkJobs (FsTree.dir dname cs), j.readable = true) →
      jobsSize (fileDatas (walkJobs (FsTree.dir dname cs)))
        = (scanDirectory (FsTree.dir dname cs)).totalBytes) ∧
    (∀ es comment destDir, (∀ e ∈ es, isLocalPath (ZipEntry.name e) = true) →
      (ExtractWithProgress (.zipData es comment) destDir true).err = none ∧
      progressOk (zipTotalBytes es) (zipTotalBytes es)
        ((ExtractWithProgress (.zipData es comment) destDir true).events.map
          (fun e => e.1))) ∧
    (∀ es destDir, (∀ e ∈ es, isLocalPath (TarEntry.name e) = true) →
      (ExtractGzipWithProgress (.gzData es) destDir true).err = none ∧
      progressOk (tarTotalBytes es) (tarTotalBytes es)
        ((ExtractGzipWithProgress (.gzData es) destDir true).events.map
          (fun e => e.1))) := by
  have hcreate : progressOk (scanDirectory t).totalBytes
      (jobsSize (fileDatas (walkJobs t)))
      ((createEvents t).map (fun e => e.1)) := by
    show progressOk _ _ ((((0, (scanDirectory t).totalBytes, "") ::
      (creationEvents (scanDirectory t).totalBytes (fileDatas (walkJobs t)) 0 ++
        [(jobsSize (fileDatas (walkJobs t)), (scanDirectory t).totalBytes,
          lastFileName (fileDatas (walkJobs t)) "")])) : List (Nat × Nat × String)).map
            (fun e => e.1))
    rw [List.map_cons, List.map_append]
    refine progressOk_build _ _ _ ?_ ?_ (fileDatas_size_le t)
    · intro d hd
      obtain ⟨ev, hev, hevd⟩ := List.mem_map.mp hd
      rw [← hevd]
      have := creationEvents_bounds (scanDirectory t).totalBytes
        (fileDatas (walkJobs t)) 0 ev hev
      omega
    · rw [List.pairwise_map]
      exact creationEvents_pairwise _ _ 0
  have hcreateTot : ∀ e ∈ createEvents t, e.2.1 = (scanDirectory t).totalBytes := by
    intro e he
    rcases List.mem_cons.mp he with h | h
    · rw [h]
    · rcases List.mem_append.mp h with h2 | h2
      · exact (creationEvents_bounds _ _ 0 e h2).2.2
      · have : e = (jobsSize (fileDatas (walkJobs t)), (scanDirectory t).totalBytes,
            lastFileName (fileDatas (walkJobs t)) "") := by simpa using h2
        rw [this]
  refine ⟨hcreate, hcreateTot, hcreate, ?_, ?_, ?_⟩
  · intro dname cs hall
    show jobsSize ((walkJobs (FsTree.dir dname cs)).filter (fun j => j.isDir || j.readable))
      = jobsSize (walkJobs (FsTree.dir dname cs))
    rw [List.filter_eq_self.mpr]
    intro j hj
    rw [hall j hj]
    simp
  · intro es comment destDir hall
    have hdp : (dirPhase destDir es).err = none :=
      (dirPhase_err_none_iff destDir es).mpr (fun e he _ => hall e he)
    have hfp : (filePhase destDir (zipTotalBytes es) es 0).err = none :=
      (filePhase_err_none_iff destDir (zipTotalBytes es) es 0).mpr (fun e he _ => hall e he)
    have hev : (ExtractWithProgressCore (.zipData es comment) destDir).events
        = (0, zipTotalBytes es) ::
          ((filePhase destDir (zipTotalBytes es) es 0).events ++
            [(zipTotalBytes es, zipTotalBytes es)]) := by
      simp only [ExtractWithProgressCore, hdp, hfp]
    have herr : (ExtractWithProgressCore (.zipData es comment) destDir).err = none := by
      simp only [ExtractWithProgressCore, hdp, hfp]
    refine ⟨herr, ?_⟩
    show progressOk _ _ ((ExtractWithProgressCore (.zipData es comment) destDir).events.map
      (fun e => e.1))
    rw [hev, List.map_cons, List.map_append]
    refine progressOk_build _ _ _ ?_ ?_ (le_refl _)
    · intro d hd
      obtain ⟨ev, hevm, hevd⟩ := List.mem_map.mp hd
      rw [← hevd]
      have := filePhase_events_bounds destDir (zipTotalBytes es) es 0 ev hevm
      omega
    · rw [List.pairwise_map]
      exact filePhase_events_pairwise _ _ _ 0
  · intro es destDir hall
    have hgl : (gzLoop destDir (tarTotalBytes es) es 0).err = none :=
      (gzLoop_err_none_iff destDir (tarTotalBytes es) es 0).mpr (fun e he => hall e he)
    have hev : (ExtractGzipWithProgressCore (.gzData es) destDir).events
        = (0, tarTotalBytes es) ::
          ((gzLoop destDir (tarTotalBytes es) es 0).events ++
            [(tarTotalBytes es, tarTotalBytes es)]) := by
      simp only [ExtractGzipWithProgressCore, hgl]
    have herr : (ExtractGzipWithProgressCore (.gzData es) destDir).err = none := by
      simp only [ExtractGzipWithProgressCore, hgl]
    refine ⟨herr, ?_⟩
    show progressOk _ _ ((ExtractGzipWithProgressCore (.gzData es) destDir).events.map
      (fun e => e.1))
    rw [hev, List.map_cons, List.map_append]
    refine progressOk_build _ _ _ ?_ ?_ (le_refl _)
    · intro d hd
      obtain ⟨ev, hevm, hevd⟩ := List.mem_map.mp hd
      rw [← hevd]
      have := gzLoop_events_bounds destDir (tarTotalBytes es) es 0 ev hevm
      omega
    · rw [List.pairwise_map]
      exact gzLoop_events_pairwise _ _ _ 0

/-- Witness for C7: the contract at a one-file tree and a successful
one-file zip extraction. -/
theorem progress_invariants_witness :
    progressOk (scanDirectory (FsTree.dir "d" [.file "a" [1, 2, 3] true])).totalBytes
      (jobsSize (fileDatas (walkJobs (FsTree.dir "d" [.file "a" [1, 2, 3] true]))))
      ((ZipWithProgressAndFile demoHash (.dir "d" [.file "a" [1, 2, 3] true])
        "d" "a.zip").events.map (fun e => e.1)) ∧
    (ExtractWithProgress (.zipData [⟨"f", false, 8, [9]⟩] "") "dest" true).err = none :=
  ⟨(progress_invariants demoHash (.dir "d" [.file "a" [1, 2, 3] true])
      "d" "a.zip" "a.tar.gz").1,
   ((progress_invariants demoHash (.dir "d" []) "d" "a.zip" "a.tar.gz").2.2.2.2.1
      [⟨"f", false, 8, [9]⟩] "" "dest" (by decide)).1⟩

end Zipper
